import Mathlib

/-
Verification of the bit_torrent repository against its specification.

Shallow embedding conventions:
- Rust `u8`/`u32`/`usize` values are modeled as `Nat`; wherever two's-complement
  behavior matters (the `!` bitwise-not operator on `u32`), the 32-bit mask is
  made explicit (`rustNotU32`).
- Fallible operations (`Result`) become `Except`; Rust panics (`unwrap`,
  `expect`, out-of-bounds indexing) are modeled by an outer `Option`, where
  `none` denotes a panic/abort of the process.
- `Vec<u8>` becomes `List Nat`, `VecDeque` becomes `List` (front = head),
  `BTreeMap<BencodableByteString, _>` becomes an association list kept sorted
  by the derived lexicographic byte order, and `Instant` (monotonic clock)
  becomes a `Nat` passed explicitly to the operations that sample it.
- The two `f32` computations in `Torrent::new`
  (`(last_piece_length as f32 / 16384f32).ceil()` and
  `(total_length as f32 / piece_length as f32).floor()`) are modeled by exact
  natural ceiling/floor division; for the operand ranges exercised here
  (values below 2^24) the `f32` computation is exact, so this agrees with the
  source.  The derived `percent_complete : f32` field is a quotient of the
  modeled counters and is not itself modeled.
-/

namespace BitTorrent

/-! ## src/bitfield.rs -/

/-- BitField from src/bitfield.rs: a byte vector plus a length field
(the `From<Vec<u8>>` impl stores the byte count in `len`). -/
structure BitField where
  bf : List Nat
  len : Nat
  deriving Repr, DecidableEq

inductive BitFieldError where
  | invalidBit : Nat → BitFieldError
  deriving Repr, DecidableEq

/-- From<Vec<u8>> for BitField: adopt the bytes, `len` is the byte count. -/
def BitField.fromBytes (b : List Nat) : BitField :=
  { bf := b, len := b.length }

/-- BitField::is_set: bit `i` lives in byte `i / 8` at position `7 - i % 8`
(most-significant first); out-of-range byte index is an InvalidBit error. -/
def BitField.isSet (s : BitField) (bit : Nat) : Except BitFieldError Bool :=
  let byte := bit / 8
  let offset_in_byte := bit % 8
  match s.bf[byte]? with
  | some b => .ok ((1 <<< (7 - offset_in_byte)) &&& b ≠ 0)
  | none => .error (.invalidBit bit)

/-- BitField::_set: OR the addressed byte with `1 << (7 - i % 8)`;
out-of-range byte index is an InvalidBit error. -/
def BitField.set (s : BitField) (bit : Nat) : Except BitFieldError BitField :=
  let byte := bit / 8
  let offset_in_byte := bit % 8
  match s.bf[byte]? with
  | some b =>
      .ok { s with bf := s.bf.set byte ((1 <<< (7 - offset_in_byte)) ||| b) }
  | none => .error (.invalidBit bit)

/-! ## src/util.rs helpers used by the wire codec -/

/-- u32::to_be_bytes: big-endian 4-byte encoding. -/
def u32be (n : Nat) : List Nat :=
  [n / 2 ^ 24 % 256, n / 2 ^ 16 % 256, n / 2 ^ 8 % 256, n % 256]

/-- usize::to_be_bytes on a 64-bit platform: big-endian 8-byte encoding. -/
def u64be (n : Nat) : List Nat :=
  [n / 2 ^ 56 % 256, n / 2 ^ 48 % 256, n / 2 ^ 40 % 256, n / 2 ^ 32 % 256,
   n / 2 ^ 24 % 256, n / 2 ^ 16 % 256, n / 2 ^ 8 % 256, n % 256]

/-! ## src/messages.rs -/

inductive Message where
  | keepAlive : Message
  | choke : Message
  | unChoke : Message
  | interested : Message
  | notInterested : Message
  | have : Nat → Message
  | bitField : List Nat → Message
  | request : Nat → Nat → Nat → Message
  | piece : Nat → Nat → List Nat → Message
  deriving Repr, DecidableEq

/-- Message::serialize from src/messages.rs.  Note the `Piece` arm of the
source serializes `(data.len() + 3).to_be_bytes()`: `data.len()` is a `usize`,
so this emits an 8-byte prefix holding `|data| + 3`, unlike every other arm,
which emits a `u32` 4-byte prefix. -/
def Message.serialize : Message → List Nat
  | .keepAlive => u32be 0
  | .choke => u32be 1 ++ [0]
  | .unChoke => u32be 1 ++ [1]
  | .interested => u32be 1 ++ [2]
  | .notInterested => u32be 1 ++ [3]
  | .have index => u32be 5 ++ [4] ++ u32be index
  | .bitField bf => u32be (bf.length + 1) ++ [5] ++ bf
  | .request index begin_ length => u32be 13 ++ [6] ++ u32be index ++ u32be begin_ ++ u32be length
  | .piece index offset data =>
      u64be (data.length + 3) ++ [7] ++ u32be index ++ u32be offset ++ data

/-- ASCII bytes of "BitTorrent protocol" (P_STR in src/messages.rs). -/
def pStrBytes : List Nat :=
  [66, 105, 116, 84, 111, 114, 114, 101, 110, 116, 32,
   112, 114, 111, 116, 111, 99, 111, 108]

/-- Handshake::serialize from src/messages.rs: length byte 19, the protocol
name, 8 zero reserved bytes, the info-hash, the peer-id. -/
def handshakeSerialize (info_hash peer_id : List Nat) : List Nat :=
  [19] ++ pStrBytes ++ List.replicate 8 0 ++ info_hash ++ peer_id

inductive HandshakeParseError where
  | pStrLen | pStr | reservedBytes | infoHash | peerId
  deriving Repr, DecidableEq

structure Handshake where
  info_hash : List Nat
  peer_id : List Nat
  deriving Repr, DecidableEq

/-- slice.get(a..b) on a Rust slice: defined iff a ≤ b and b ≤ length. -/
def getSlice (l : List Nat) (a b : Nat) : Option (List Nat) :=
  if a ≤ b ∧ b ≤ l.length then some ((l.drop a).take (b - a)) else none

/-- UTF-8 validity of a byte list (RFC 3629), as checked by
std::str::from_utf8 in Handshake::new. -/
def isValidUtf8 : List Nat → Bool
  | [] => true
  | b :: rest =>
    if b < 0x80 then isValidUtf8 rest
    else if 0xC2 ≤ b ∧ b ≤ 0xDF then
      match rest with
      | c1 :: r => decide (0x80 ≤ c1 ∧ c1 ≤ 0xBF) && isValidUtf8 r
      | _ => false
    else if b = 0xE0 then
      match rest with
      | c1 :: c2 :: r =>
          decide (0xA0 ≤ c1 ∧ c1 ≤ 0xBF) && decide (0x80 ≤ c2 ∧ c2 ≤ 0xBF) && isValidUtf8 r
      | _ => false
    else if 0xE1 ≤ b ∧ b ≤ 0xEC then
      match rest with
      | c1 :: c2 :: r =>
          decide (0x80 ≤ c1 ∧ c1 ≤ 0xBF) && decide (0x80 ≤ c2 ∧ c2 ≤ 0xBF) && isValidUtf8 r
      | _ => false
    else if b = 0xED then
      match rest with
      | c1 :: c2 :: r =>
          decide (0x80 ≤ c1 ∧ c1 ≤ 0x9F) && decide (0x80 ≤ c2 ∧ c2 ≤ 0xBF) && isValidUtf8 r
      | _ => false
    else if 0xEE ≤ b ∧ b ≤ 0xEF then
      match rest with
      | c1 :: c2 :: r =>
          decide (0x80 ≤ c1 ∧ c1 ≤ 0xBF) && decide (0x80 ≤ c2 ∧ c2 ≤ 0xBF) && isValidUtf8 r
      | _ => false
    else if b = 0xF0 then
      match rest with
      | c1 :: c2 :: c3 :: r =>
          decide (0x90 ≤ c1 ∧ c1 ≤ 0xBF) && decide (0x80 ≤ c2 ∧ c2 ≤ 0xBF) &&
          decide (0x80 ≤ c3 ∧ c3 ≤ 0xBF) && isValidUtf8 r
      | _ => false
    else if 0xF1 ≤ b ∧ b ≤ 0xF3 then
      match rest with
      | c1 :: c2 :: c3 :: r =>
          decide (0x80 ≤ c1 ∧ c1 ≤ 0xBF) && decide (0x80 ≤ c2 ∧ c2 ≤ 0xBF) &&
          decide (0x80 ≤ c3 ∧ c3 ≤ 0xBF) && isValidUtf8 r
      | _ => false
    else if b = 0xF4 then
      match rest with
      | c1 :: c2 :: c3 :: r =>
          decide (0x80 ≤ c1 ∧ c1 ≤ 0x8F) && decide (0x80 ≤ c2 ∧ c2 ≤ 0xBF) &&
          decide (0x80 ≤ c3 ∧ c3 ≤ 0xBF) && isValidUtf8 r
      | _ => false
    else false

/-- Handshake::new from src/messages.rs: the remote's claimed protocol-name
length at byte 0 determines all the later field offsets. -/
def handshakeNew (bytes : List Nat) : Except HandshakeParseError Handshake :=
  match bytes[0]? with
  | none => .error .pStrLen
  | some p_str_len =>
    let len := 1 + p_str_len
    match getSlice bytes 1 len with
    | none => .error .pStr
    | some s =>
      if isValidUtf8 s then
        match getSlice bytes len (len + 8) with
        | none => .error .reservedBytes
        | some _ =>
          match getSlice bytes (len + 8) (len + 8 + 20) with
          | none => .error .infoHash
          | some info_hash =>
            match getSlice bytes (len + 8 + 20) (len + 8 + 20 + 20) with
            | none => .error .peerId
            | some peer_id => .ok { info_hash := info_hash, peer_id := peer_id }
      else .error .pStr

/-! ## src/connection.rs handshake acceptance and src/tracker.rs peer identity -/

structure SockAddrV4 where
  ip : Nat × Nat × Nat × Nat
  port : Nat
  deriving Repr, DecidableEq

structure Peer where
  socket_addr : SockAddrV4
  id : List Nat
  deriving Repr, DecidableEq

inductive TrackerPeer where
  | peer : Peer → TrackerPeer
  | sockAddr : SockAddrV4 → TrackerPeer
  deriving Repr, DecidableEq

/-- From<TrackerPeer> for Peer (src/tracker.rs): a structured tracker entry
keeps its advertised id; a compact-form address gets a locally synthesized
random 20-byte id.  The random draw is impure, so the drawn id is passed in
as `randId`. -/
def peerFromTrackerPeer (tp : TrackerPeer) (randId : List Nat) : Peer :=
  match tp with
  | .peer p => p
  | .sockAddr sa => { socket_addr := sa, id := randId }

/-- The acceptance decision of PeerConnection::new (src/connection.rs lines
72..83): parse the 68 bytes read back, then accept exactly when the remote
info-hash equals ours and the remote peer-id equals the id the caller passed
(the caller always passes `peer.id`, synthesized or not). -/
def acceptDecision (local_info_hash expected_peer_id return_bytes : List Nat) : Bool :=
  match handshakeNew return_bytes with
  | .error _ => false
  | .ok hs => local_info_hash = hs.info_hash ∧ hs.peer_id = expected_peer_id

/-! ## src/tracker.rs compact peers decoding -/

inductive TrackerResponseError where
  | misalignedPeers
  deriving Repr, DecidableEq

/-- The loop body of the compact-peers From impl (src/tracker.rs lines
74..84), iterating 6 bytes at a time over the remaining payload (the caller
guarantees a multiple of 6, so the catch-all arm is never hit there): each
iteration takes the group's first 4 bytes as the IP octets, but reads the
port from `peer_bytes[4]` and `peer_bytes[5]` — absolute indices into the
whole payload, not into the current 6-byte group. -/
def compactPeersLoop (peer_bytes : List Nat) : List Nat → List SockAddrV4
  | b0 :: b1 :: b2 :: b3 :: _ :: _ :: rest =>
    { ip := (b0, b1, b2, b3),
      port := 256 * peer_bytes.getD 4 0 + peer_bytes.getD 5 0 }
      :: compactPeersLoop peer_bytes rest
  | _ => []

/-- From<&BencodableByteString> for the compact peers result
(src/tracker.rs lines 66..93): a payload whose length is not a multiple of 6
is the MisalignedPeers error, otherwise decode 6 bytes per peer. -/
def compactPeers (peer_bytes : List Nat) :
    Except TrackerResponseError (List SockAddrV4) :=
  if peer_bytes.length % 6 = 0 then .ok (compactPeersLoop peer_bytes peer_bytes)
  else .error .misalignedPeers

/-! ## src/bencode.rs -/

/-- Bencodable from src/bencode.rs.  `ByteString(Vec<u8>)` is a byte list,
`Integer(i32)` is an `Int` (the i32 range is enforced where it matters, in
the decoder and in `Valid`), and
`Dictionary(BTreeMap<BencodableByteString, Bencodable>)` is an association
list kept sorted by the derived lexicographic byte order (the BTreeMap
invariant). -/
inductive Bencodable where
  | byteString : List Nat → Bencodable
  | integer : Int → Bencodable
  | list : List Bencodable → Bencodable
  | dict : List (List Nat × Bencodable) → Bencodable
  deriving Repr

/-- The derived `Ord` on `BencodableByteString(Vec<u8>)`: strict
lexicographic order on the raw bytes, a proper prefix comparing smaller. -/
def bytesLt : List Nat → List Nat → Bool
  | [], [] => false
  | [], _ :: _ => true
  | _ :: _, [] => false
  | a :: as, b :: bs => if a < b then true else if b < a then false else bytesLt as bs

/-- BTreeMap::insert on the sorted association list: place the pair before
the first strictly larger key, replacing the value on an equal key. -/
def dictInsert (k : List Nat) (v : Bencodable) :
    List (List Nat × Bencodable) → List (List Nat × Bencodable)
  | [] => [(k, v)]
  | (k1, v1) :: rest =>
    if bytesLt k k1 then (k, v) :: (k1, v1) :: rest
    else if k = k1 then (k, v) :: rest
    else (k1, v1) :: dictInsert k v rest

/-- Digits of `n` in decimal ASCII, prepended to `acc`
(`usize::to_string` / the digits of `i32::to_string`). -/
def natDigitsCore (n : Nat) (acc : List Nat) : List Nat :=
  if _h : n < 10 then (n + 48) :: acc
  else natDigitsCore (n / 10) ((n % 10 + 48) :: acc)
termination_by n
decreasing_by exact Nat.div_lt_self (by omega) (by omega)

/-- ASCII decimal of a natural number, canonical (no leading zeros,
`0` for zero). -/
def natDecimal (n : Nat) : List Nat := natDigitsCore n []

/-- ASCII decimal of an `i32` (`i32::to_string`): a leading `-` for
negatives. -/
def intDecimal (i : Int) : List Nat :=
  if i < 0 then 45 :: natDecimal i.natAbs else natDecimal i.toNat

/- bencode from src/bencode.rs.  The Rust function returns
`Result<Vec<u8>, EncodeError>` but the error arms are unreachable (the
leaf cases never fail), so the model is total.  Dictionary pairs are emitted
in the sorted association-list order, i.e. BTreeMap iteration order. -/
mutual

def bencode : Bencodable → List Nat
  | .byteString bs => natDecimal bs.length ++ 58 :: bs
  | .integer i => 105 :: (intDecimal i ++ [101])
  | .list l => 108 :: (bencodeList l ++ [101])
  | .dict d => 100 :: (bencodeDict d ++ [101])

def bencodeList : List Bencodable → List Nat
  | [] => []
  | v :: vs => bencode v ++ bencodeList vs

def bencodeDict : List (List Nat × Bencodable) → List Nat
  | [] => []
  | (k, v) :: rest => (bencode (.byteString k) ++ bencode v) ++ bencodeDict rest

end

inductive BencodeParseErrorType where
  | parseInteger | parseList | parseDictionary | parseByteString
  | parseByteStringLength | parseInitiate | parseEnd | parseValue
  /-- Artifact of the fueled model; unreachable for the fuel `bdecode`
  supplies (see `bdecode`). -/
  | fuelExhausted
  deriving Repr, DecidableEq

/-- BencodeParseError, minus the `original` diagnostic copy of the input.
The model is faithful on which inputs succeed and on the decoded value;
the error index/type bookkeeping of the source is kept only loosely. -/
structure BencodeParseError where
  index : Nat
  error_type : BencodeParseErrorType
  deriving Repr, DecidableEq

/-- Core of the `while next_char != stop` scan shared by parse_byte_string
and parse_integer: walk the suffix of the input starting at absolute
position `i`, collecting bytes until `stop`; return the absolute position of
`stop` and the collected bytes, or `none` when the input ends first. -/
def scanCore (stop : Nat) : List Nat → Nat → Option (Nat × List Nat)
  | [], _ => none
  | c :: rest, i =>
    if c = stop then some (i, [])
    else
      match scanCore stop rest (i + 1) with
      | none => none
      | some (j, cs) => some (j, c :: cs)

/-- The scan loop itself: since the source only ever reads `input[j]` for
`j ≥ i`, scanning the suffix `input.drop i` is the same computation. -/
def scanUntil (stop : Nat) (input : List Nat) (i : Nat) : Option (Nat × List Nat) :=
  scanCore stop (input.drop i) i

/-- Accumulate decimal digits; `none` at the first non-digit byte. -/
def digitsValCore (acc : Nat) : List Nat → Option Nat
  | [] => some acc
  | c :: cs => if 48 ≤ c ∧ c ≤ 57 then digitsValCore (acc * 10 + (c - 48)) cs else none

/-- Value of a non-empty all-digit byte list; `none` otherwise. -/
def digitsVal : List Nat → Option Nat
  | [] => none
  | cs => digitsValCore 0 cs

/-- `str::parse::<usize>()`: optional `+` sign, then at least one digit,
overflow above `2^64 - 1` rejected. -/
def parseUsize (cs : List Nat) : Option Nat :=
  let cs1 := match cs with
    | 43 :: rest => rest
    | _ => cs
  match digitsVal cs1 with
  | none => none
  | some n => if n < 2 ^ 64 then some n else none

/-- `str::parse::<i32>()`: optional sign, at least one digit, two's
complement i32 range enforced. -/
def parseI32 (cs : List Nat) : Option Int :=
  match cs with
  | 43 :: rest =>
      (digitsVal rest).bind fun n => if (n : Int) ≤ 2 ^ 31 - 1 then some (n : Int) else none
  | 45 :: rest =>
      (digitsVal rest).bind fun n => if (n : Int) ≤ 2 ^ 31 then some (-(n : Int)) else none
  | _ =>
      (digitsVal cs).bind fun n => if (n : Int) ≤ 2 ^ 31 - 1 then some (n : Int) else none

/-- parse_byte_string (src/bencode.rs lines 165..200): scan the decimal
length up to `:`, parse it as usize, then slice out that many bytes. -/
def parseByteString (index : Nat) (input : List Nat) :
    Except BencodeParseError (Nat × Bencodable) :=
  match scanUntil 58 input index with
  | none => .error ⟨input.length, .parseByteStringLength⟩
  | some (j, length_string) =>
    match parseUsize length_string with
    | none => .error ⟨j, .parseByteStringLength⟩
    | some length =>
      if j + 1 + length ≤ input.length then
        .ok (j + 1 + length, .byteString ((input.drop (j + 1)).take length))
      else .error ⟨j, .parseByteString⟩

/-- parse_integer (src/bencode.rs lines 202..220): scan up to `e`, parse the
collected bytes as i32. -/
def parseInteger (index : Nat) (input : List Nat) :
    Except BencodeParseError (Nat × Bencodable) :=
  match scanUntil 101 input index with
  | none => .error ⟨input.length, .parseInteger⟩
  | some (j, integer_string) =>
    match parseI32 integer_string with
    | none => .error ⟨j, .parseInteger⟩
    | some i => .ok (j + 1, .integer i)

/- parse_bencoded_value / parse_list / parse_dictionary (src/bencode.rs
lines 222..300), with an explicit fuel argument to express the mutual
recursion; `bdecode` passes fuel that can never be exhausted, so
`fuelExhausted` is unreachable through `bdecode`. -/
mutual

def parseValue : Nat → Nat → List Nat → Except BencodeParseError (Nat × Bencodable)
  | 0, i, _ => .error ⟨i, .fuelExhausted⟩
  | fuel + 1, i, input =>
    match input[i]? with
    | none => .error ⟨i, .parseValue⟩
    | some b =>
      if 48 ≤ b ∧ b ≤ 57 then parseByteString i input
      else if b = 105 then parseInteger (i + 1) input
      else if b = 108 then
        match parseListLoop fuel (i + 1) input with
        | .error e => .error e
        | .ok (k, vs) => .ok (k, .list vs)
      else if b = 100 then
        match parseDictLoop fuel (i + 1) input [] with
        | .error e => .error e
        | .ok (k, m) => .ok (k, .dict m)
      else .error ⟨i, .parseInitiate⟩

def parseListLoop : Nat → Nat → List Nat → Except BencodeParseError (Nat × List Bencodable)
  | 0, i, _ => .error ⟨i, .fuelExhausted⟩
  | fuel + 1, i, input =>
    match input[i]? with
    | none => .error ⟨i, .parseList⟩
    | some c =>
      if c = 101 then .ok (i + 1, [])
      else
        match parseValue fuel i input with
        | .error e => .error e
        | .ok (j, v) =>
          match parseListLoop fuel j input with
          | .error e => .error e
          | .ok (k, vs) => .ok (k, v :: vs)

def parseDictLoop : Nat → Nat → List Nat → List (List Nat × Bencodable) →
    Except BencodeParseError (Nat × List (List Nat × Bencodable))
  | 0, i, _, _ => .error ⟨i, .fuelExhausted⟩
  | fuel + 1, i, input, acc =>
    match input[i]? with
    | none => .error ⟨i, .parseDictionary⟩
    | some c =>
      if c = 101 then .ok (i + 1, acc)
      else
        match parseValue fuel i input with
        | .error e => .error e
        | .ok (j, .byteString k) =>
          match parseValue fuel j input with
          | .error e => .error e
          | .ok (j2, v) => parseDictLoop fuel j2 input (dictInsert k v acc)
        | .ok (_, _) => .error ⟨i, .parseDictionary⟩

end

/-- bdecode (src/bencode.rs lines 302..317): parse one value from index 0,
then reject trailing bytes (ParseEnd).  Fuel `2 * length + 2` always
suffices (`neededV_le_bencode_length` proves it for canonical inputs, and
every parser consumes input as it recurses), so the model's success set
matches the source. -/
def bdecode (bencoded_bytes : List Nat) : Except BencodeParseError Bencodable :=
  match parseValue (2 * bencoded_bytes.length + 2) 0 bencoded_bytes with
  | .error e => .error e
  | .ok (next_index, b) =>
    if next_index < bencoded_bytes.length then .error ⟨next_index, .parseEnd⟩
    else .ok b

/-- Consecutive keys strictly ascending in the byte order: the BTreeMap
iteration-order invariant on the association-list model. -/
def sortedKeys : List (List Nat × Bencodable) → Bool
  | [] => true
  | [_] => true
  | (k1, _) :: (k2, v2) :: rest =>
    bytesLt k1 k2 && sortedKeys ((k2, v2) :: rest)

/- The representation invariant of the Rust `Bencodable` value: integers
fit in i32, byte strings are genuine `Vec<u8>` contents (bytes, length below
`usize::MAX + 1`), and dictionaries are sorted BTreeMaps.  Every value the
Rust program can build satisfies this by construction. -/
mutual

def Valid : Bencodable → Bool
  | .byteString bs => decide (bs.length < 2 ^ 64) && bs.all (· < 256)
  | .integer i => decide (-(2 ^ 31) ≤ i ∧ i < 2 ^ 31)
  | .list l => ValidList l
  | .dict d => sortedKeys d && ValidDict d

def ValidList : List Bencodable → Bool
  | [] => true
  | v :: vs => Valid v && ValidList vs

def ValidDict : List (List Nat × Bencodable) → Bool
  | [] => true
  | (k, v) :: rest =>
    (decide (k.length < 2 ^ 64) && k.all (· < 256)) && (Valid v && ValidDict rest)

end

/- Fuel actually consumed by the parser on the canonical encoding of a
value (see the round-trip proof). -/
mutual

def neededV : Bencodable → Nat
  | .byteString _ => 1
  | .integer _ => 1
  | .list l => 1 + neededL l
  | .dict d => 1 + neededD d

def neededL : List Bencodable → Nat
  | [] => 1
  | v :: vs => 1 + max (neededV v) (neededL vs)

def neededD : List (List Nat × Bencodable) → Nat
  | [] => 1
  | (k, v) :: rest => 1 + max (neededV (.byteString k)) (max (neededV v) (neededD rest))

end

/-! ## src/torrent.rs -/

/-- FIXED_BLOCK_SIZE from src/torrent.rs. -/
def FIXED_BLOCK_SIZE : Nat := 16384

inductive BlockState where
  | notRequested | requested | done
  deriving Repr, DecidableEq

/-- Block from src/torrent.rs; `last_request : Option<Instant>` is modeled as
an optional sample of the monotonic clock (a `Nat`). -/
structure Block where
  state : BlockState
  offset : Nat
  last_request : Option Nat
  piece_index : Nat
  block_length : Nat
  deriving Repr, DecidableEq

/-- Piece from src/torrent.rs: the index plus the queue of not-yet-dispatched
blocks (VecDeque, front = list head). -/
structure Piece where
  index : Nat
  blocks : List Block
  deriving Repr, DecidableEq

/-- Torrent from src/torrent.rs.  The derived `percent_complete : f32` field
(always `completed_blocks / total_blocks`) is not modeled; all other fields
are.  `repeated_blocks : HashMap<(u32, u32), u32>` is an association list. -/
structure Torrent where
  total_blocks : Nat
  pieces : List Piece
  piece_length : Nat
  total_pieces : Nat
  completed_blocks : Nat
  requested_blocks : Nat
  repeated_blocks : List ((Nat × Nat) × Nat)
  in_progress_blocks : List Block
  completed_pieces : List (List (Option Block))
  data_buffer : List Nat
  deriving Repr, DecidableEq

/-- Rust bitwise NOT on u32: `!x = 2^32 - 1 - x` for `x < 2^32`. -/
def rustNotU32 (x : Nat) : Nat := (2 ^ 32 - 1) - x % 2 ^ 32

/-- Torrent::new (src/torrent.rs lines 59..141).  The `number_of_blocks`
computation transcribes the source's
`(piece_length / FIXED_BLOCK_SIZE) + !!(piece_length % FIXED_BLOCK_SIZE)`
with `!` being Rust's bitwise u32 NOT.  The two f32 rounding steps are exact
ceiling/floor division in the modeled range (see the header comment). -/
def Torrent.new (number_of_pieces piece_length total_length : Nat) : Torrent :=
  let number_of_blocks :=
    piece_length / FIXED_BLOCK_SIZE + rustNotU32 (rustNotU32 (piece_length % FIXED_BLOCK_SIZE))
  let pieces : List Piece :=
    (List.range (number_of_pieces - 1)).map fun index =>
      { index := index
        blocks := (List.range number_of_blocks).map fun block_index =>
          { state := .notRequested
            offset := FIXED_BLOCK_SIZE * block_index
            last_request := none
            piece_index := index
            block_length := FIXED_BLOCK_SIZE } }
  let last_piece_length := total_length % piece_length
  let m := (last_piece_length + FIXED_BLOCK_SIZE - 1) / FIXED_BLOCK_SIZE
  let last_piece_block_count := if m = 0 then 1 else m
  let last_piece_index := total_length / piece_length
  let last_blocks : List Block :=
    (List.range (last_piece_block_count - 1)).map fun block_index =>
      { state := .notRequested
        offset := FIXED_BLOCK_SIZE * block_index
        last_request := none
        piece_index := pieces.length
        block_length := FIXED_BLOCK_SIZE }
  let last_block : Block :=
    { state := .notRequested
      offset := FIXED_BLOCK_SIZE * (last_piece_block_count - 1)
      last_request := none
      piece_index := pieces.length
      block_length := last_piece_length - FIXED_BLOCK_SIZE * last_blocks.length }
  let pieces := pieces ++ [{ index := last_piece_index, blocks := last_blocks ++ [last_block] }]
  { total_blocks := (number_of_pieces - 1) * number_of_blocks + last_piece_block_count
    pieces := pieces
    piece_length := piece_length
    total_pieces := number_of_pieces
    completed_blocks := 0
    requested_blocks := 0
    repeated_blocks := []
    in_progress_blocks := []
    completed_pieces :=
      (List.range number_of_pieces).map fun _ => (List.range number_of_blocks).map fun _ => none
    data_buffer := List.replicate total_length 0 }

/-- Vec::swap_remove(i): replace element i with the last element and pop.
Only called on non-empty lists with i in range (Rust panics otherwise). -/
def swapRemove (l : List α) (i : Nat) : List α :=
  match l.getLast? with
  | none => l
  | some last => (l.set i last).dropLast

/-- The piece-selection loop of Torrent::get_next_block (src/torrent.rs lines
155..172): walk the `pieces` list in list order; for each piece, unwrap
`bitfield.is_set(piece.index)` (a panic when the bitfield is too short, the
outer `none`); stop at the first piece whose bit is set, returning its list
position. -/
def scanPieces (bitfield : BitField) : List Piece → Nat → Option (Option Nat)
  | [], _ => some none
  | p :: rest, k =>
    match bitfield.isSet p.index with
    | .error _ => none
    | .ok true => some (some k)
    | .ok false => scanPieces bitfield rest (k + 1)

/-- Placeholder piece for total list indexing; never observed, since every
index used is in bounds. -/
def defaultPiece : Piece := { index := 0, blocks := [] }

/-- PieceIndexOffsetLength from src/torrent.rs. -/
structure PieceIndexOffsetLength where
  piece : Nat
  offset : Nat
  length : Nat
  deriving Repr, DecidableEq

/-- The `Some((piece_index, blocks_to_request_queue))` arm of
Torrent::get_next_block (src/torrent.rs lines 176..201), for the piece at
list position `k`: pop the queue head (empty queue = the `expect` panic,
the outer `none`), mark it Requested and stamp it `now`, push it in flight,
and when the queue emptied, swap_remove the piece (found again by index, the
second `expect`). -/
def dispatchAt (t : Torrent) (k : Nat) (now : Nat) :
    Option (Torrent × Option PieceIndexOffsetLength) :=
  match (t.pieces.getD k defaultPiece).blocks with
  | [] => none
  | next_block :: queue_rest =>
    let piece_index := (t.pieces.getD k defaultPiece).index
    let t' := { t with
      pieces := t.pieces.set k { index := piece_index, blocks := queue_rest }
      requested_blocks := t.requested_blocks + 1
      in_progress_blocks := t.in_progress_blocks ++
        [{ next_block with state := .requested, last_request := some now }] }
    if queue_rest.isEmpty then
      match t'.pieces.findIdx? (fun piece => piece.index == piece_index) with
      | none => none
      | some i => some ({ t' with pieces := swapRemove t'.pieces i },
          some { piece := piece_index, offset := next_block.offset,
                 length := next_block.block_length })
    else
      some (t', some { piece := piece_index, offset := next_block.offset,
                       length := next_block.block_length })

/-- Torrent::get_next_block (src/torrent.rs lines 143..204).  `now` is the
sampled monotonic clock.  The outer `none` is a panic (bitfield unwrap, the
pop-from-empty-queue expect, or the position expect); `some (t, none)` is the
source's `None` return (back-pressure cap hit, or no piece matches);
`some (t, some r)` hands out block `r`. -/
def Torrent.getNextBlock (t : Torrent) (bitfield : BitField) (now : Nat) :
    Option (Torrent × Option PieceIndexOffsetLength) :=
  if t.in_progress_blocks.length == 1 then
    some (t, none)
  else
    match scanPieces bitfield t.pieces 0 with
    | none => none
    | some none => some (t, none)
    | some (some k) => dispatchAt t k now

/-- Write `data` over `buf` starting at position `pos` (the `write_all` into
`&mut buffer[pos..pos+len]`). -/
def writeBytes (buf : List Nat) (pos : Nat) (data : List Nat) : List Nat :=
  buf.take pos ++ data ++ buf.drop (pos + data.length)

/-- `.entry(key).and_modify(|v| v += 1).or_insert(1)` on the association-list
model of the duplicate tally. -/
def bumpTally (key : Nat × Nat) : List ((Nat × Nat) × Nat) → List ((Nat × Nat) × Nat)
  | [] => [(key, 1)]
  | (k, v) :: rest => if k = key then (k, v + 1) :: rest else (k, v) :: bumpTally key rest

/-- Set entry (i, j) of a grid of optional blocks; caller guarantees both
indices are in range (Rust indexing panics otherwise, handled by the caller's
bounds check). -/
def gridSet (g : List (List (Option Block))) (i j : Nat) (b : Option Block) :
    List (List (Option Block)) :=
  g.set i ((g.getD i []).set j b)

/-- Torrent::fill_block (src/torrent.rs lines 206..241).  `none` is a panic:
the (piece, offset) pair is not among the in-flight blocks (the
`unwrap_or_else(panic!...)`), or the buffer slice / completed grid indexing
is out of bounds. -/
def Torrent.fillBlock (t : Torrent) (piece_index offset : Nat) (data : List Nat) :
    Option Torrent :=
  let block_index := offset / FIXED_BLOCK_SIZE
  match t.in_progress_blocks.findIdx?
      (fun block => block.piece_index == piece_index && block.offset == offset) with
  | none => none
  | some index =>
    let b := t.in_progress_blocks.getD index
      { state := .notRequested, offset := 0, last_request := none,
        piece_index := 0, block_length := 0 }
    if b.state ≠ .done then
      let blocks_file_position := piece_index * t.piece_length + offset
      if blocks_file_position + data.length ≤ t.data_buffer.length then
        if piece_index < t.completed_pieces.length ∧
            block_index < (t.completed_pieces.getD piece_index []).length then
          some { t with
            data_buffer := writeBytes t.data_buffer blocks_file_position data
            completed_blocks := t.completed_blocks + 1
            completed_pieces := gridSet t.completed_pieces piece_index block_index
              (some { b with state := .done })
            in_progress_blocks := swapRemove
              (t.in_progress_blocks.set index { b with state := .done }) index }
        else none
      else none
    else
      some { t with repeated_blocks := bumpTally (piece_index, offset) t.repeated_blocks }

/-- Torrent::are_we_done_yet. -/
def Torrent.areWeDoneYet (t : Torrent) : Bool :=
  t.completed_blocks == t.total_blocks

/-- The scheduler states reachable from a fresh `Torrent::new` by successful
(non-panicking) `get_next_block` and `fill_block` calls. -/
inductive Reachable : Torrent → Prop where
  | base (number_of_pieces piece_length total_length : Nat)
      (hN : 1 ≤ number_of_pieces) (hpl : 1 ≤ piece_length) :
      Reachable (Torrent.new number_of_pieces piece_length total_length)
  | step_get {t t' : Torrent} {bf : BitField} {now : Nat}
      {r : Option PieceIndexOffsetLength} :
      Reachable t → t.getNextBlock bf now = some (t', r) → Reachable t'
  | step_fill {t t' : Torrent} {piece_index offset : Nat} {data : List Nat} :
      Reachable t → t.fillBlock piece_index offset data = some t' → Reachable t'

/-! ## Concrete states used by witnesses and counterexamples -/

/-- An all-ones one-byte bitfield: bits 0..7 all set. -/
def exBitfield : BitField := BitField.fromBytes [255]

/-- A 3-piece torrent with one block per piece (piece_length = 1 gives
`1/16384 + !!(1%16384) = 1` block) and a small 5-byte buffer; its active
list holds pieces with indices 0, 1 and 5 (the last piece's index is
`total_length / piece_length = 5`). -/
def exTorrent0 : Torrent := Torrent.new 3 1 5

/-- `exTorrent0` after handing out the single block of piece 0 (which empties
piece 0's queue, so swap_remove moves the last piece to the front of the
list). -/
def exTorrent1 : Torrent :=
  ((exTorrent0.getNextBlock exBitfield 0).map Prod.fst).getD exTorrent0

/-- `exTorrent1` after absorbing block (0, 0). -/
def exTorrent2 : Torrent := (exTorrent1.fillBlock 0 0 []).getD exTorrent1

/-- A minimal two-piece torrent for in-flight-cap witnesses. -/
def smallTorrent0 : Torrent := Torrent.new 2 16384 6

/-- `smallTorrent0` with one block in flight. -/
def smallTorrent1 : Torrent :=
  ((smallTorrent0.getNextBlock exBitfield 0).map Prod.fst).getD smallTorrent0

/-- A well-formed 68-byte return handshake frame: info-hash twenty 1-bytes,
peer-id twenty 2-bytes. -/
def exReturnFrame : List Nat :=
  handshakeSerialize (List.replicate 20 1) (List.replicate 20 2)

end BitTorrent

namespace BitTorrent

/-! ## Helper lemmas -/

deriving instance DecidableEq for Except

theorem shiftLeft_land_iff (k b : Nat) :
    ((1 <<< k) &&& b ≠ 0) ↔ ((b >>> k) &&& 1 = 1) := by
  have h1 : (1 <<< k) &&& b = 2 ^ k * (b.testBit k).toNat := by
    rw [Nat.shiftLeft_eq, one_mul, Nat.two_pow_and]
  have h2 : (b >>> k) &&& 1 = b / 2 ^ k % 2 := by
    rw [Nat.and_one_is_mod, Nat.shiftRight_eq_div_pow]
  have h3 : b.testBit k = decide (b / 2 ^ k % 2 = 1) := Nat.testBit_to_div_mod
  rw [h1, h2]
  cases hb : b.testBit k with
  | false =>
    rw [hb] at h3
    have hmod : ¬ b / 2 ^ k % 2 = 1 := of_decide_eq_false h3.symm
    simp only [Bool.toNat_false, mul_zero, ne_eq]
    exact iff_of_false (by simp) hmod
  | true =>
    rw [hb] at h3
    have hmod : b / 2 ^ k % 2 = 1 := of_decide_eq_true h3.symm
    simp only [Bool.toNat_true, mul_one, ne_eq]
    exact iff_of_true (by positivity) hmod

/-! ## Claim theorems -/

/-- C9: a bitfield built from raw bytes `B` answers `is_set(i)` with
`Ok((B[i/8] >> (7 - i%8)) & 1 == 1)` whenever the byte index `i/8` is in
range, and both `is_set(i)` and `set(i)` return the InvalidBit error (no
panic) when `i/8` is out of range.  Since `i < 8*|B|` iff `i/8 < |B|`, this
covers exactly the claim's two ranges. -/
theorem bitfield_isSet_set_spec (B : List Nat) (i : Nat) :
    ((BitField.fromBytes B).isSet i =
      if i / 8 < B.length then .ok (((B.getD (i / 8) 0) >>> (7 - i % 8)) &&& 1 = 1)
      else .error (.invalidBit i)) ∧
    (B.length ≤ i / 8 → (BitField.fromBytes B).set i = .error (.invalidBit i)) := by
  constructor
  · unfold BitField.isSet BitField.fromBytes
    cases h : B[i / 8]? with
    | none =>
      have hlen : B.length ≤ i / 8 := by
        by_contra hc
        push_neg at hc
        rw [List.getElem?_eq_getElem hc] at h
        cases h
      simp only [h]
      rw [if_neg (by omega)]
    | some b =>
      have hlen : i / 8 < B.length := by
        by_contra hc
        rw [List.getElem?_eq_none (by omega)] at h
        cases h
      have hb : B.getD (i / 8) 0 = b := by
        simp [List.getD, h]
      simp only [h, hb]
      rw [if_pos hlen]
      congr 1
      exact decide_eq_decide.mpr (shiftLeft_land_iff (7 - i % 8) b)
  · intro hlen
    have hnone : B[i / 8]? = none := List.getElem?_eq_none (by omega)
    simp only [BitField.set, BitField.fromBytes, hnone]

/-- C9 witness: at `B = [1,3,5,7]`, bit 7 is set, bit 6 is not, and index 32
is rejected by both operations. -/
theorem bitfield_isSet_set_spec_witness :
    (BitField.fromBytes [1, 3, 5, 7]).set 32 = .error (.invalidBit 32) ∧
    (BitField.fromBytes [1, 3, 5, 7]).isSet 7 = .ok true ∧
    (BitField.fromBytes [1, 3, 5, 7]).isSet 6 = .ok false := by
  refine ⟨(bitfield_isSet_set_spec [1, 3, 5, 7] 32).2 (by decide), ?_, ?_⟩
  · rw [(bitfield_isSet_set_spec [1, 3, 5, 7] 7).1]
    decide
  · rw [(bitfield_isSet_set_spec [1, 3, 5, 7] 6).1]
    decide


/-- C4 (code bug): in Rust, `!` on u32 is bitwise NOT, so the
`!!(piece_length % FIXED_BLOCK_SIZE)` in Torrent::new is the identity, not a
0/1 normalization.  With piece_length = 32770 (remainder 2 mod 16384),
piece 0 is built with 32770/16384 + 32770%16384 = 4 blocks, while the
claimed formula `pl/BS + (1 if pl%BS != 0 else 0)` gives 3. -/
theorem torrent_new_block_count_bug :
    ((Torrent.new 2 32770 32780).pieces.head?.map fun p => p.blocks.length) = some 4 ∧
    32770 / FIXED_BLOCK_SIZE + (if 32770 % FIXED_BLOCK_SIZE ≠ 0 then 1 else 0) = 3 ∧
    rustNotU32 (rustNotU32 2) = 2 := by
  refine ⟨by decide, by decide, by decide⟩

/-- C5 (code bug): the compact-peers decoder takes each group's IP octets
from the group, but always reads the port from absolute payload bytes 4 and
5.  On two distinct groups the second peer gets the first group's port 8080
instead of its own 0x23*256 + 0x27 = 8999; a 7-byte payload is the distinct
misaligned-peers error, as claimed. -/
theorem compact_peers_port_bug :
    compactPeers [1, 2, 3, 4, 31, 144, 5, 6, 7, 8, 35, 39] =
      .ok [{ ip := (1, 2, 3, 4), port := 8080 }, { ip := (5, 6, 7, 8), port := 8080 }] ∧
    256 * 35 + 39 = 8999 ∧
    compactPeers [1, 2, 3, 4, 31, 144, 7] = .error .misalignedPeers := by
  refine ⟨by decide, by decide, by decide⟩

/-- C6 (counterexample): the serialized handshake frame does carry the
info-hash and peer-id, but not at bytes 25..45 / 45..65: byte 25 is still
inside the 19-byte protocol name + 8 reserved bytes region.  With info-hash
= twenty 7-bytes and peer-id = twenty 9-bytes, the 25..45 and 45..65 slices
differ from the respective fields. -/
theorem handshake_offsets_counterexample :
    (handshakeSerialize (List.replicate 20 7) (List.replicate 20 9)).length = 68 ∧
    ((handshakeSerialize (List.replicate 20 7) (List.replicate 20 9)).drop 25).take 20 ≠
      List.replicate 20 7 ∧
    ((handshakeSerialize (List.replicate 20 7) (List.replicate 20 9)).drop 45).take 20 ≠
      List.replicate 20 9 := by
  refine ⟨by decide, by decide, by decide⟩

/-- C6 (amended): the frame is 68 bytes with byte 0 = 19, bytes 1..20 the
ASCII protocol name, bytes 20..28 zero, the info-hash at bytes 28..48 and
the peer-id at bytes 48..68. -/
theorem handshake_layout (h p : List Nat) (hh : h.length = 20) (hp : p.length = 20) :
    (handshakeSerialize h p).length = 68 ∧
    (handshakeSerialize h p).take 1 = [19] ∧
    ((handshakeSerialize h p).drop 1).take 19 = pStrBytes ∧
    ((handshakeSerialize h p).drop 20).take 8 = List.replicate 8 0 ∧
    ((handshakeSerialize h p).drop 28).take 20 = h ∧
    (handshakeSerialize h p).drop 48 = p := by
  have e1 : handshakeSerialize h p = [19] ++ (pStrBytes ++ (List.replicate 8 0 ++ (h ++ p))) := by
    simp [handshakeSerialize]
  have e2 : handshakeSerialize h p = ([19] ++ pStrBytes) ++ (List.replicate 8 0 ++ (h ++ p)) := by
    simp [handshakeSerialize]
  have e3 : handshakeSerialize h p =
      ([19] ++ pStrBytes ++ List.replicate 8 0) ++ (h ++ p) := by
    simp [handshakeSerialize]
  have e4 : handshakeSerialize h p =
      (([19] ++ pStrBytes ++ List.replicate 8 0) ++ h) ++ p := by
    simp [handshakeSerialize]
  refine ⟨?_, ?_, ?_, ?_, ?_, ?_⟩
  · rw [e1]
    simp [pStrBytes, hh, hp]
  · rw [e1, List.take_left' (by rfl)]
  · rw [e1, List.drop_left' (by rfl), List.take_left' (by simp [pStrBytes])]
  · rw [e2, List.drop_left' (by simp [pStrBytes]), List.take_left' (by simp)]
  · rw [e3, List.drop_left' (by simp [pStrBytes]), List.take_left' hh]
  · rw [e4, List.drop_left' (by simp [pStrBytes, hh])]

/-- C6 witness: the layout theorem applied to the concrete hash of 7-bytes
and id of 9-bytes. -/
theorem handshake_layout_witness :
    ((handshakeSerialize (List.replicate 20 7) (List.replicate 20 9)).drop 28).take 20 =
      List.replicate 20 7 ∧
    (handshakeSerialize (List.replicate 20 7) (List.replicate 20 9)).drop 48 =
      List.replicate 20 9 :=
  ⟨(handshake_layout (List.replicate 20 7) (List.replicate 20 9) (by simp) (by simp)).2.2.2.2.1,
   (handshake_layout (List.replicate 20 7) (List.replicate 20 9) (by simp) (by simp)).2.2.2.2.2⟩

/-- C7 (counterexample): for a compact-form peer the tracker advertises no
id, the local side synthesizes a random one (here twenty 3-bytes), and the
claim says a matching info-hash alone must then suffice.  But the code
compares the remote peer-id against the synthesized id unconditionally:
`exReturnFrame` parses fine and carries the matching info-hash (twenty
1-bytes), yet the connection is rejected. -/
theorem accept_compact_peer_counterexample :
    handshakeNew exReturnFrame =
      .ok { info_hash := List.replicate 20 1, peer_id := List.replicate 20 2 } ∧
    exReturnFrame.length = 68 ∧
    acceptDecision (List.replicate 20 1)
      (peerFromTrackerPeer (.sockAddr { ip := (9, 9, 9, 9), port := 1 })
        (List.replicate 20 3)).id exReturnFrame = false := by
  refine ⟨by decide, by decide, by decide⟩

/-- C7 (amended): the connection is accepted iff the info-hash matches and
the remote peer-id equals the id passed in — which for a compact-form peer
is the locally synthesized random id, so such a peer is accepted only when
the remote happens to present that synthesized id; a matching info-hash
alone never suffices. -/
theorem accept_requires_exact_peer_id (sa : SockAddrV4) (randId H bytes : List Nat)
    (hs : Handshake) (hparse : handshakeNew bytes = .ok hs) (hhash : hs.info_hash = H) :
    (acceptDecision H (peerFromTrackerPeer (.sockAddr sa) randId).id bytes = true ↔
      hs.peer_id = randId) := by
  subst hhash
  simp only [acceptDecision, peerFromTrackerPeer, hparse, decide_eq_true_eq]
  simp

/-- C7 witness: with the remote id equal to the synthesized id, the
connection is accepted. -/
theorem accept_requires_exact_peer_id_witness :
    acceptDecision (List.replicate 20 1)
      (peerFromTrackerPeer (.sockAddr { ip := (9, 9, 9, 9), port := 1 })
        (List.replicate 20 2)).id exReturnFrame = true :=
  (accept_requires_exact_peer_id { ip := (9, 9, 9, 9), port := 1 } (List.replicate 20 2)
    (List.replicate 20 1) exReturnFrame
    { info_hash := List.replicate 20 1, peer_id := List.replicate 20 2 }
    (by decide) (by decide)).mpr rfl

/-- C8 (code bug): the Piece arm of Message::serialize emits
`(data.len() + 3).to_be_bytes()` — an 8-byte usize prefix holding |d| + 3 —
so a Piece with 2 data bytes yields a 19-byte frame whose first four bytes
are zero, not the claimed 4-byte prefix L = 9 + |d| = 11 followed by 11
payload bytes.  KeepAlive does serialize as the claimed 4 zero bytes. -/
theorem piece_serialize_prefix_bug :
    (Message.piece 1 2 [10, 20]).serialize =
      [0, 0, 0, 0, 0, 0, 0, 5, 7, 0, 0, 0, 1, 0, 0, 0, 2, 10, 20] ∧
    (Message.piece 1 2 [10, 20]).serialize.length = 19 ∧
    (Message.piece 1 2 [10, 20]).serialize.take 4 = [0, 0, 0, 0] ∧
    Message.keepAlive.serialize = [0, 0, 0, 0] := by
  refine ⟨by decide, by decide, by decide, by decide⟩



/-- When the dispatch arm hands out a block, the returned piece index is the
index of the piece at the scanned list position. -/
theorem dispatchAt_piece {t : Torrent} {k now : Nat} {t' : Torrent}
    {r : PieceIndexOffsetLength} (h : dispatchAt t k now = some (t', some r)) :
    r.piece = (t.pieces.getD k defaultPiece).index := by
  unfold dispatchAt at h
  cases hblocks : (t.pieces.getD k defaultPiece).blocks with
  | nil => rw [hblocks] at h; cases h
  | cons nb q =>
    rw [hblocks] at h
    dsimp only at h
    split at h
    · split at h
      · cases h
      · simp only [Option.some.injEq, Prod.mk.injEq] at h
        rw [← h.2]
    · simp only [Option.some.injEq, Prod.mk.injEq] at h
      rw [← h.2]

/-- The dispatch arm always pushes exactly one block onto the in-flight
list. -/
theorem dispatchAt_in_progress {t : Torrent} {k now : Nat} {t' : Torrent}
    {r : Option PieceIndexOffsetLength} (h : dispatchAt t k now = some (t', r)) :
    ∃ b, t'.in_progress_blocks = t.in_progress_blocks ++ [b] := by
  unfold dispatchAt at h
  cases hblocks : (t.pieces.getD k defaultPiece).blocks with
  | nil => rw [hblocks] at h; cases h
  | cons nb q =>
    rw [hblocks] at h
    dsimp only at h
    split at h
    · split at h
      · cases h
      · simp only [Option.some.injEq, Prod.mk.injEq] at h
        refine ⟨{ nb with state := .requested, last_request := some now }, ?_⟩
        rw [← h.1]
    · simp only [Option.some.injEq, Prod.mk.injEq] at h
      refine ⟨{ nb with state := .requested, last_request := some now }, ?_⟩
      rw [← h.1]

/-- The scan loop stops at the first piece, in list order, whose bit is set:
if it returns position `k` starting from counter `s`, then piece `k - s` of
the scanned list is eligible and all earlier pieces are not. -/
theorem scanPieces_spec (bf : BitField) :
    ∀ (l : List Piece) (s k : Nat), scanPieces bf l s = some (some k) →
      s ≤ k ∧ k - s < l.length ∧
      bf.isSet ((l.getD (k - s) defaultPiece).index) = .ok true ∧
      ∀ j < k - s, bf.isSet ((l.getD j defaultPiece).index) = .ok false := by
  intro l
  induction l with
  | nil => intro s k h; simp [scanPieces] at h
  | cons p rest ih =>
    intro s k h
    cases hset : bf.isSet p.index with
    | error e => simp [scanPieces, hset] at h
    | ok bv =>
      cases bv with
      | true =>
        simp [scanPieces, hset] at h
        subst h
        refine ⟨le_refl s, by simp, by simpa using hset, by omega⟩
      | false =>
        simp only [scanPieces, hset] at h
        obtain ⟨hs1, hlt, htrue, hfalse⟩ := ih (s + 1) k h
        have hks : 1 ≤ k - s := by omega
        refine ⟨by omega, by simp; omega, ?_, ?_⟩
        · have : k - s = (k - (s + 1)) + 1 := by omega
          rw [this, List.getD_cons_succ]
          exact htrue
        · intro j hj
          cases j with
          | zero => simpa using hset
          | succ j1 =>
            rw [List.getD_cons_succ]
            exact hfalse j1 (by omega)

/-- C2 (amended): whenever get_next_block hands out a block, the chosen
piece is the first piece in the active list's **list order** whose bit is
set — not necessarily the lowest-indexed one, because swap_remove reorders
the list when a queue empties. -/
theorem get_next_block_first_eligible (t : Torrent) (bf : BitField) (now : Nat)
    (t' : Torrent) (r : PieceIndexOffsetLength)
    (h : t.getNextBlock bf now = some (t', some r)) :
    ∃ k, k < t.pieces.length ∧
      (t.pieces.getD k defaultPiece).index = r.piece ∧
      bf.isSet r.piece = .ok true ∧
      ∀ j < k, bf.isSet ((t.pieces.getD j defaultPiece).index) = .ok false := by
  unfold Torrent.getNextBlock at h
  by_cases h1 : t.in_progress_blocks.length == 1
  · rw [if_pos h1] at h
    simp at h
  · rw [if_neg h1] at h
    cases hscan : scanPieces bf t.pieces 0 with
    | none => rw [hscan] at h; cases h
    | some o =>
      cases o with
      | none => rw [hscan] at h; simp at h
      | some k =>
        rw [hscan] at h
        obtain ⟨-, hlt, htrue, hfalse⟩ := scanPieces_spec bf t.pieces 0 k hscan
        rw [Nat.sub_zero] at hlt htrue hfalse
        have hr : r.piece = (t.pieces.getD k defaultPiece).index := dispatchAt_piece h
        refine ⟨k, hlt, hr.symm, ?_, hfalse⟩
        rw [hr]
        exact htrue

/-- C2 (counterexample): in the reachable state `exTorrent2` (reached by
draining piece 0 of a fresh 3-piece torrent), the active list is
[piece 5, piece 1], both bits are set in the all-ones bitfield, and
get_next_block returns a block of piece 5 — not of the lowest-indexed
active piece 1. -/
theorem get_next_block_not_lowest_index :
    ((exTorrent2.getNextBlock exBitfield 0).map fun res => res.2) =
      some (some { piece := 5, offset := 0, length := 0 }) ∧
    exTorrent2.pieces.map (fun p => p.index) = [5, 1] ∧
    exBitfield.isSet 1 = .ok true ∧ (1 : Nat) < 5 := by
  refine ⟨by decide, by decide, by decide, by decide⟩

/-- C2 witness: the first-eligible characterization applied to a fresh
two-piece torrent handing out block (0, 0, 16384). -/
theorem get_next_block_first_eligible_witness :
    ∃ k, k < smallTorrent0.pieces.length ∧
      (smallTorrent0.pieces.getD k defaultPiece).index =
        (PieceIndexOffsetLength.mk 0 0 16384).piece ∧
      exBitfield.isSet (PieceIndexOffsetLength.mk 0 0 16384).piece = .ok true ∧
      ∀ j < k, exBitfield.isSet ((smallTorrent0.pieces.getD j defaultPiece).index) =
        .ok false :=
  get_next_block_first_eligible smallTorrent0 exBitfield 0 smallTorrent1
    { piece := 0, offset := 0, length := 16384 } (by decide)

/-- C3 (code bug): after block (0, 0) of `exTorrent1` is filled, its block
sits in the completed grid in state Done — but a second fill_block call for
the same (piece, offset) panics (the in-flight lookup fails, hitting the
`unwrap_or_else(panic!(...))`), instead of bumping the duplicate tally and
discarding as the spec describes.  The tally branch is unreachable: a Done
block is never left in the in-flight list. -/
theorem fill_block_duplicate_panic :
    (((exTorrent2.completed_pieces.getD 0 []).getD 0 none).map fun b => b.state) =
      some .done ∧
    exTorrent2.fillBlock 0 0 [] = none ∧
    exTorrent2.repeated_blocks = [] := by
  refine ⟨by decide, by decide, by decide⟩

/-- The in-flight list can only stay, gain one pushed block, or shrink by a
swap_remove, across the two mutating scheduler operations. -/
theorem swapRemove_length_le (l : List α) (i : Nat) : (swapRemove l i).length ≤ l.length := by
  unfold swapRemove
  cases l.getLast? with
  | none => exact le_refl _
  | some last =>
    calc ((l.set i last).dropLast).length = (l.set i last).length - 1 := by
          rw [List.length_dropLast]
      _ ≤ l.length := by rw [List.length_set]; omega

/-- swap_remove applied after an in-place update never grows the list. -/
theorem swapRemove_set_length_le (l : List α) (i : Nat) (b : α) :
    (swapRemove (l.set i b) i).length ≤ l.length := by
  have h := swapRemove_length_le (l.set i b) i
  rwa [List.length_set] at h

/-- Every state reachable from a fresh torrent keeps at most one block in
the in-flight list: get_next_block refuses to hand out a block while
`in_progress_blocks.len() == 1`, and it only pushes when the list was
empty. -/
theorem reachable_in_progress_le_one {t : Torrent} (h : Reachable t) :
    t.in_progress_blocks.length ≤ 1 := by
  induction h with
  | base N pl tot hN hpl => simp [Torrent.new]
  | step_get hre hstep ih =>
    rename_i t t' bf now r
    unfold Torrent.getNextBlock at hstep
    by_cases h1 : t.in_progress_blocks.length == 1
    · rw [if_pos h1] at hstep
      simp only [Option.some.injEq, Prod.mk.injEq] at hstep
      rw [← hstep.1]
      exact ih
    · rw [if_neg h1] at hstep
      have hlen0 : t.in_progress_blocks.length = 0 := by
        have : t.in_progress_blocks.length ≠ 1 := by simpa using h1
        omega
      cases hscan : scanPieces bf t.pieces 0 with
      | none => rw [hscan] at hstep; cases hstep
      | some o =>
        cases o with
        | none =>
          rw [hscan] at hstep
          simp only [Option.some.injEq, Prod.mk.injEq] at hstep
          rw [← hstep.1]
          exact ih
        | some k =>
          rw [hscan] at hstep
          obtain ⟨b, hb⟩ := dispatchAt_in_progress hstep
          rw [hb, List.length_append, hlen0]
          simp
  | step_fill hre hstep ih =>
    rename_i t t' pi off d
    unfold Torrent.fillBlock at hstep
    cases hfind : t.in_progress_blocks.findIdx?
        (fun block => block.piece_index == pi && block.offset == off) with
    | none => rw [hfind] at hstep; cases hstep
    | some index =>
      rw [hfind] at hstep
      simp only at hstep
      split at hstep
      · split at hstep
        · split at hstep
          · simp only [Option.some.injEq] at hstep
            rw [← hstep]
            exact le_trans (swapRemove_set_length_le _ _ _) ih
          · cases hstep
        · cases hstep
      · simp only [Option.some.injEq] at hstep
        rw [← hstep]
        exact ih

/-- C10: in every reachable scheduler state, at most one block is in flight,
and whenever the in-flight list is non-empty, get_next_block returns None
without touching the state, for every bitfield — so a new block is handed
out only after fill_block has absorbed the previous one. -/
theorem in_flight_cap_one (t : Torrent) (h : Reachable t) :
    t.in_progress_blocks.length ≤ 1 ∧
    (t.in_progress_blocks ≠ [] → ∀ bf now, t.getNextBlock bf now = some (t, none)) := by
  refine ⟨reachable_in_progress_le_one h, fun hne bf now => ?_⟩
  have hle := reachable_in_progress_le_one h
  have hlen : t.in_progress_blocks.length = 1 := by
    have : 0 < t.in_progress_blocks.length := List.length_pos.mpr hne
    omega
  unfold Torrent.getNextBlock
  rw [if_pos (by simp [hlen])]

/-- C10 witness: `smallTorrent1` is reachable with one in-flight block, and
get_next_block then returns None leaving the state unchanged. -/
theorem in_flight_cap_one_witness :
    smallTorrent1.in_progress_blocks ≠ [] ∧
    smallTorrent1.getNextBlock exBitfield 5 = some (smallTorrent1, none) := by
  have hstep : smallTorrent0.getNextBlock exBitfield 0 =
      some (smallTorrent1, some { piece := 0, offset := 0, length := 16384 }) := by decide
  have hreach : Reachable smallTorrent1 :=
    Reachable.step_get (Reachable.base 2 16384 6 (by omega) (by omega)) hstep
  have hne : smallTorrent1.in_progress_blocks ≠ [] := by decide
  exact ⟨hne, (in_flight_cap_one smallTorrent1 hreach).2 hne exBitfield 5⟩



/-! ## Bencode round-trip: byte order lemmas -/

theorem bytesLt_irrefl (a : List Nat) : bytesLt a a = false := by
  induction a with
  | nil => rfl
  | cons x xs ih => simp [bytesLt, ih]

theorem bytesLt_asymm : ∀ {a b : List Nat}, bytesLt a b = true → bytesLt b a = false := by
  intro a
  induction a with
  | nil =>
    intro b h
    cases b with
    | nil => simp [bytesLt] at h
    | cons y ys => simp [bytesLt]
  | cons x xs ih =>
    intro b h
    cases b with
    | nil => simp [bytesLt] at h
    | cons y ys =>
      simp only [bytesLt] at h ⊢
      split_ifs at h ⊢ with h1 h2 h3
      all_goals simp_all
      all_goals omega

theorem bytesLt_trans : ∀ {a b c : List Nat},
    bytesLt a b = true → bytesLt b c = true → bytesLt a c = true := by
  intro a
  induction a with
  | nil =>
    intro b c hab hbc
    cases b with
    | nil => simp [bytesLt] at hab
    | cons y ys =>
      cases c with
      | nil => simp [bytesLt] at hbc
      | cons z zs => simp [bytesLt]
  | cons x xs ih =>
    intro b c hab hbc
    cases b with
    | nil => simp [bytesLt] at hab
    | cons y ys =>
      cases c with
      | nil => simp [bytesLt] at hbc
      | cons z zs =>
        simp only [bytesLt] at hab hbc ⊢
        split_ifs at hab hbc ⊢ with h1 h2 h3
        all_goals try rfl
        all_goals try omega
        all_goals try simp_all
        exact ih hab hbc

theorem bytesLt_ne {a b : List Nat} (h : bytesLt a b = true) : a ≠ b := by
  intro he
  subst he
  rw [bytesLt_irrefl] at h
  cases h

/-! ## Bencode round-trip: decimal digit lemmas -/

theorem natDigitsCore_append (n : Nat) :
    ∀ acc : List Nat, natDigitsCore n acc = natDigitsCore n [] ++ acc := by
  induction n using Nat.strong_induction_on with
  | _ n ih =>
    intro acc
    by_cases h : n < 10
    · conv_lhs => rw [natDigitsCore]
      conv_rhs => rw [natDigitsCore]
      simp [h]
    · conv_lhs => rw [natDigitsCore]
      conv_rhs => rw [natDigitsCore]
      rw [dif_neg h, dif_neg h]
      rw [ih (n / 10) (Nat.div_lt_self (by omega) (by omega)) ((n % 10 + 48) :: acc),
          ih (n / 10) (Nat.div_lt_self (by omega) (by omega)) [n % 10 + 48]]
      simp

theorem natDecimal_mem {n c : Nat} (h : c ∈ natDecimal n) : 48 ≤ c ∧ c ≤ 57 := by
  induction n using Nat.strong_induction_on with
  | _ n ih =>
    unfold natDecimal at h
    by_cases h10 : n < 10
    · rw [natDigitsCore, dif_pos h10] at h
      simp at h
      omega
    · rw [natDigitsCore, dif_neg h10,
          natDigitsCore_append (n / 10) [n % 10 + 48]] at h
      rw [List.mem_append] at h
      cases h with
      | inl h1 => exact ih (n / 10) (Nat.div_lt_self (by omega) (by omega)) h1
      | inr h2 =>
        simp at h2
        omega

theorem natDecimal_head (n : Nat) :
    ∃ c cs, natDecimal n = c :: cs ∧ 48 ≤ c ∧ c ≤ 57 := by
  induction n using Nat.strong_induction_on with
  | _ n ih =>
    unfold natDecimal
    by_cases h10 : n < 10
    · rw [natDigitsCore, dif_pos h10]
      exact ⟨n + 48, [], rfl, by omega, by omega⟩
    · rw [natDigitsCore, dif_neg h10,
          natDigitsCore_append (n / 10) [n % 10 + 48]]
      obtain ⟨c, cs, hc, h1, h2⟩ := ih (n / 10) (Nat.div_lt_self (by omega) (by omega))
      unfold natDecimal at hc
      rw [hc]
      exact ⟨c, cs ++ [n % 10 + 48], rfl, h1, h2⟩

theorem natDecimal_ne_nil (n : Nat) : natDecimal n ≠ [] := by
  obtain ⟨c, cs, hc, -, -⟩ := natDecimal_head n
  rw [hc]
  simp

theorem digitsValCore_decimal (n : Nat) :
    ∀ a t, digitsValCore a (natDecimal n ++ t) =
      digitsValCore (a * 10 ^ (natDecimal n).length + n) t := by
  induction n using Nat.strong_induction_on with
  | _ n ih =>
    intro a t
    by_cases h10 : n < 10
    · have hd : natDecimal n = [n + 48] := by
        unfold natDecimal
        rw [natDigitsCore, dif_pos h10]
      rw [hd]
      simp only [List.cons_append, List.nil_append, digitsValCore, List.length_cons,
        List.length_nil]
      rw [if_pos (by omega), pow_one]
      simp
    · have hd : natDecimal n = natDecimal (n / 10) ++ [n % 10 + 48] := by
        unfold natDecimal
        rw [natDigitsCore, dif_neg h10, natDigitsCore_append (n / 10) [n % 10 + 48]]
      rw [hd, List.append_assoc]
      rw [ih (n / 10) (Nat.div_lt_self (by omega) (by omega)) a ([n % 10 + 48] ++ t)]
      simp only [List.cons_append, List.nil_append, digitsValCore]
      rw [if_pos (by omega)]
      rw [List.length_append, List.length_cons, List.length_nil]
      congr 1
      have hmod : n % 10 + 48 - 48 = n % 10 := by omega
      rw [hmod, pow_succ, ← Nat.mul_assoc]
      have hnd : 10 * (n / 10) + n % 10 = n := Nat.div_add_mod n 10
      rw [Nat.add_mul]
      omega

theorem digitsVal_decimal (n : Nat) : digitsVal (natDecimal n) = some n := by
  obtain ⟨c, cs, hc, h1, h2⟩ := natDecimal_head n
  have hne : natDecimal n ≠ [] := by rw [hc]; simp
  have : digitsVal (natDecimal n) = digitsValCore 0 (natDecimal n) := by
    rw [hc]
    rfl
  rw [this, ← List.append_nil (natDecimal n), digitsValCore_decimal]
  simp [digitsValCore]


/-! ## Bencode round-trip: scan and number-parse lemmas -/

theorem scanCore_spec (stop : Nat) :
    ∀ (mid : List Nat) (rest : List Nat) (i : Nat), stop ∉ mid →
      scanCore stop (mid ++ stop :: rest) i = some (i + mid.length, mid) := by
  intro mid
  induction mid with
  | nil =>
    intro rest i _
    simp [scanCore]
  | cons c cs ih =>
    intro rest i hmem
    have hc : c ≠ stop := by
      intro he
      exact hmem (by rw [he]; exact List.mem_cons_self _ _)
    simp only [List.cons_append, scanCore, List.append_eq]
    rw [if_neg (by omega)]
    rw [ih rest (i + 1) (by intro hm; exact hmem (List.mem_cons_of_mem _ hm))]
    simp
    omega

theorem scanUntil_spec (stop : Nat) (pre mid rest : List Nat) (hmem : stop ∉ mid) :
    scanUntil stop (pre ++ mid ++ stop :: rest) pre.length =
      some (pre.length + mid.length, mid) := by
  unfold scanUntil
  rw [List.append_assoc, List.drop_left]
  exact scanCore_spec stop mid rest pre.length hmem

theorem parseUsize_decimal (n : Nat) (hn : n < 2 ^ 64) :
    parseUsize (natDecimal n) = some n := by
  obtain ⟨c, cs, hc, h48, h57⟩ := natDecimal_head n
  unfold parseUsize
  rw [hc]
  have hds : digitsVal (c :: cs) = some n := by
    rw [← hc]
    exact digitsVal_decimal n
  split
  · rename_i rest heq
    injection heq with h1 h2
    omega
  · dsimp only
    rw [hds]
    norm_num at hn
    simp [hn]

theorem parseI32_intDecimal (i : Int) (hlo : -(2 ^ 31) ≤ i) (hhi : i < 2 ^ 31) :
    parseI32 (intDecimal i) = some i := by
  by_cases hneg : i < 0
  · have hd : intDecimal i = 45 :: natDecimal i.natAbs := by
      unfold intDecimal
      rw [if_pos hneg]
    rw [hd]
    have habs : (i.natAbs : Int) ≤ 2 ^ 31 := by
      omega
    unfold parseI32
    split
    · rename_i rest heq
      injection heq with h1 h2
      omega
    · rename_i rest heq
      injection heq with h1 h2
      subst h2
      rw [digitsVal_decimal]
      simp only [Option.bind_eq_bind, Option.some_bind]
      rw [if_pos habs]
      congr 1
      omega
    · rename_i hno43 hno45
      exact absurd rfl (hno45 (natDecimal i.natAbs))
  · have hd : intDecimal i = natDecimal i.toNat := by
      unfold intDecimal
      rw [if_neg hneg]
    obtain ⟨c, cs, hc, h48, h57⟩ := natDecimal_head i.toNat
    rw [hd, hc]
    have hds : digitsVal (c :: cs) = some i.toNat := by
      rw [← hc]
      exact digitsVal_decimal i.toNat
    have htn : (i.toNat : Int) = i := Int.toNat_of_nonneg (by omega)
    unfold parseI32
    split
    · rename_i rest heq
      injection heq with h1 h2
      omega
    · rename_i rest heq
      injection heq with h1 h2
      omega
    · rw [hds]
      simp only [Option.bind_eq_bind, Option.some_bind]
      rw [if_pos (by omega)]
      rw [htn]

/-! ## Bencode round-trip: shape lemmas about the encoder -/

theorem intDecimal_mem {i : Int} {c : Nat} (h : c ∈ intDecimal i) :
    c = 45 ∨ (48 ≤ c ∧ c ≤ 57) := by
  unfold intDecimal at h
  split at h
  · cases h with
    | head => exact Or.inl rfl
    | tail _ hm => exact Or.inr (natDecimal_mem hm)
  · exact Or.inr (natDecimal_mem h)

theorem intDecimal_ne_nil (i : Int) : intDecimal i ≠ [] := by
  unfold intDecimal
  split
  · simp
  · exact natDecimal_ne_nil _

theorem bencode_head (v : Bencodable) :
    ∃ c cs, bencode v = c :: cs ∧ c ≠ 101 := by
  cases v with
  | byteString bs =>
    obtain ⟨c, cs, hc, h48, h57⟩ := natDecimal_head bs.length
    refine ⟨c, cs ++ 58 :: bs, ?_, by omega⟩
    rw [bencode, hc]
    simp
  | integer i => exact ⟨105, intDecimal i ++ [101], by rw [bencode], by omega⟩
  | list l => exact ⟨108, bencodeList l ++ [101], by rw [bencode], by omega⟩
  | dict d => exact ⟨100, bencodeDict d ++ [101], by rw [bencode], by omega⟩

theorem bencode_length_ge_two (v : Bencodable) : 2 ≤ (bencode v).length := by
  cases v with
  | byteString bs =>
    rw [bencode]
    obtain ⟨c, cs, hc, -, -⟩ := natDecimal_head bs.length
    rw [hc]
    simp only [List.cons_append, List.length_cons, List.length_append]
    omega
  | integer i =>
    rw [bencode]
    cases hnd : intDecimal i with
    | nil => exact absurd hnd (intDecimal_ne_nil i)
    | cons c cs =>
      simp only [List.length_cons, List.length_append, List.cons_append]
      omega
  | list l =>
    rw [bencode]
    simp only [List.length_cons, List.length_append]
    omega
  | dict d =>
    rw [bencode]
    simp only [List.length_cons, List.length_append]
    omega

/-- Index lookup just past a prefix. -/
theorem getElem?_append_cons (pre : List Nat) (c : Nat) (rest : List Nat) :
    (pre ++ c :: rest)[pre.length]? = some c := by
  rw [List.getElem?_append_right (le_refl _)]
  simp


/-! ## Bencode round-trip: sorted dictionary lemmas -/

theorem sortedKeys_tail {x : List Nat × Bencodable} {l : List (List Nat × Bencodable)}
    (h : sortedKeys (x :: l) = true) : sortedKeys l = true := by
  cases l with
  | nil => rfl
  | cons y ys =>
    obtain ⟨x1, x2⟩ := x
    obtain ⟨y1, y2⟩ := y
    simp only [sortedKeys, Bool.and_eq_true] at h
    exact h.2

theorem sortedKeys_head_lt : ∀ {l : List (List Nat × Bencodable)} {k : List Nat} {v},
    sortedKeys ((k, v) :: l) = true → ∀ p ∈ l, bytesLt k p.1 = true := by
  intro l
  induction l with
  | nil =>
    intro k v _ p hp
    cases hp
  | cons y ys ih =>
    intro k v h p hp
    obtain ⟨y1, y2⟩ := y
    simp only [sortedKeys, Bool.and_eq_true] at h
    cases hp with
    | head => exact h.1
    | tail _ hm => exact bytesLt_trans h.1 (ih h.2 p hm)

theorem sortedKeys_append_all_lt :
    ∀ (acc : List (List Nat × Bencodable)) {k : List Nat} {v rest},
    sortedKeys (acc ++ (k, v) :: rest) = true → ∀ p ∈ acc, bytesLt p.1 k = true := by
  intro acc
  induction acc with
  | nil =>
    intro k v rest _ p hp
    cases hp
  | cons q acc2 ih =>
    intro k v rest h p hp
    obtain ⟨q1, q2⟩ := q
    have hq : ∀ p2 ∈ acc2 ++ (k, v) :: rest, bytesLt q1 p2.1 = true :=
      fun p2 hp2 => sortedKeys_head_lt h p2 hp2
    have htail : sortedKeys (acc2 ++ (k, v) :: rest) = true := sortedKeys_tail h
    cases hp with
    | head => exact hq (k, v) (by simp)
    | tail _ hm => exact ih htail p hm

theorem dictInsert_append {k : List Nat} {v : Bencodable} :
    ∀ (acc : List (List Nat × Bencodable)),
    (∀ p ∈ acc, bytesLt p.1 k = true) → dictInsert k v acc = acc ++ [(k, v)] := by
  intro acc
  induction acc with
  | nil => intro _; rfl
  | cons q rest ih =>
    intro h
    obtain ⟨q1, q2⟩ := q
    have hq : bytesLt q1 k = true := h (q1, q2) (by simp)
    rw [dictInsert]
    rw [if_neg (by rw [bytesLt_asymm hq]; simp),
        if_neg (fun he => bytesLt_ne hq he.symm)]
    rw [ih (fun p hp => h p (List.mem_cons_of_mem _ hp))]
    simp

/-! ## Bencode round-trip: fuel bounds -/

mutual

theorem neededV_le (v : Bencodable) : neededV v + 2 ≤ 2 * (bencode v).length := by
  cases v with
  | byteString bs =>
    rw [neededV]
    have h := bencode_length_ge_two (.byteString bs)
    omega
  | integer i =>
    rw [neededV]
    have h := bencode_length_ge_two (.integer i)
    omega
  | list l =>
    rw [neededV, bencode]
    have h := neededL_le l
    simp only [List.length_cons, List.length_append, List.length_nil]
    omega
  | dict d =>
    rw [neededV, bencode]
    have h := neededD_le d
    simp only [List.length_cons, List.length_append, List.length_nil]
    omega
termination_by sizeOf v

theorem neededL_le (l : List Bencodable) : neededL l ≤ 2 * (bencodeList l).length + 1 := by
  cases l with
  | nil =>
    rw [neededL]
    omega
  | cons v vs =>
    rw [neededL, bencodeList]
    have h1 := neededV_le v
    have h2 := neededL_le vs
    rw [List.length_append]
    omega
termination_by sizeOf l

theorem neededD_le (d : List (List Nat × Bencodable)) :
    neededD d ≤ 2 * (bencodeDict d).length + 1 := by
  cases d with
  | nil =>
    rw [neededD]
    omega
  | cons p rest =>
    obtain ⟨k, v⟩ := p
    rw [neededD, bencodeDict]
    have h1 := neededV_le (.byteString k)
    have h2 := neededV_le v
    have h3 := neededD_le rest
    simp only [List.length_append]
    omega
termination_by sizeOf d

end


/-! ## Bencode round-trip: leaf cases of the parser -/

theorem parseValue_byteString (bs : List Nat) (hlen : bs.length < 2 ^ 64)
    (f1 : Nat) (pre post : List Nat) :
    parseValue (f1 + 1) pre.length (pre ++ bencode (.byteString bs) ++ post) =
      .ok (pre.length + (bencode (.byteString bs)).length, .byteString bs) := by
  obtain ⟨c, cs, hcd, h48, h57⟩ := natDecimal_head bs.length
  have henc : bencode (.byteString bs) = natDecimal bs.length ++ 58 :: bs := by rw [bencode]
  have hget : (pre ++ bencode (.byteString bs) ++ post)[pre.length]? = some c := by
    rw [henc, hcd,
      show pre ++ (c :: cs ++ 58 :: bs) ++ post = pre ++ c :: (cs ++ 58 :: bs ++ post) by simp]
    exact getElem?_append_cons pre c _
  have hscan : scanUntil 58 (pre ++ bencode (.byteString bs) ++ post) pre.length =
      some (pre.length + (natDecimal bs.length).length, natDecimal bs.length) := by
    rw [henc,
      show pre ++ (natDecimal bs.length ++ 58 :: bs) ++ post =
        pre ++ natDecimal bs.length ++ 58 :: (bs ++ post) by simp]
    exact scanUntil_spec 58 pre _ _ (fun hm => by have := natDecimal_mem hm; omega)
  have hbound : pre.length + (natDecimal bs.length).length + 1 + bs.length ≤
      (pre ++ bencode (.byteString bs) ++ post).length := by
    rw [henc]
    simp [List.length_append]
    omega
  have hdrop : ((pre ++ bencode (.byteString bs) ++ post).drop
      (pre.length + (natDecimal bs.length).length + 1)).take bs.length = bs := by
    rw [show pre ++ bencode (.byteString bs) ++ post =
        (pre ++ natDecimal bs.length ++ [58]) ++ (bs ++ post) by rw [henc]; simp,
      List.drop_left' (by simp [List.length_append, Nat.add_assoc]),
      List.take_left]
  rw [parseValue]
  simp only [hget]
  rw [if_pos ⟨h48, h57⟩]
  rw [parseByteString]
  simp only [hscan, parseUsize_decimal bs.length hlen]
  rw [if_pos hbound, hdrop]
  rw [henc]
  simp only [List.length_append, List.length_cons]
  have he : pre.length + (natDecimal bs.length).length + 1 + bs.length =
      pre.length + ((natDecimal bs.length).length + (bs.length + 1)) := by omega
  rw [he]

theorem parseValue_integer (i : Int) (hlo : -(2 ^ 31) ≤ i) (hhi : i < 2 ^ 31)
    (f1 : Nat) (pre post : List Nat) :
    parseValue (f1 + 1) pre.length (pre ++ bencode (.integer i) ++ post) =
      .ok (pre.length + (bencode (.integer i)).length, .integer i) := by
  have henc : bencode (.integer i) = 105 :: (intDecimal i ++ [101]) := by rw [bencode]
  have hget : (pre ++ bencode (.integer i) ++ post)[pre.length]? = some 105 := by
    rw [henc,
      show pre ++ 105 :: (intDecimal i ++ [101]) ++ post =
        pre ++ 105 :: (intDecimal i ++ [101] ++ post) by simp]
    exact getElem?_append_cons pre 105 _
  have hscan : scanUntil 101 (pre ++ bencode (.integer i) ++ post) (pre.length + 1) =
      some (pre.length + 1 + (intDecimal i).length, intDecimal i) := by
    have hs2 : pre ++ bencode (.integer i) ++ post =
        (pre ++ [105]) ++ intDecimal i ++ 101 :: post := by
      rw [henc]
      simp
    have hlen1 : pre.length + 1 = (pre ++ [105]).length := by simp
    rw [hs2, hlen1]
    have h := scanUntil_spec 101 (pre ++ [105]) (intDecimal i) post
      (fun hm => by rcases intDecimal_mem hm with h | h <;> omega)
    rw [h]
  set input := pre ++ bencode (.integer i) ++ post with hinput
  rw [parseValue]
  simp only [hget]
  norm_num
  rw [parseInteger]
  rw [hscan]
  simp only [parseI32_intDecimal i hlo hhi]
  rw [henc]
  simp only [List.length_cons, List.length_append, List.length_nil]
  congr 2
  omega


/-! ## Bencode round-trip: the main parse-of-encode theorem -/

mutual

theorem parseValue_bencode : ∀ (v : Bencodable), Valid v = true →
    ∀ (f : Nat) (pre post : List Nat), neededV v ≤ f →
    parseValue f pre.length (pre ++ bencode v ++ post) =
      .ok (pre.length + (bencode v).length, v)
  | .byteString bs, hv, f, pre, post, hf => by
    rw [neededV] at hf
    obtain ⟨f1, rfl⟩ : ∃ f1, f = f1 + 1 := ⟨f - 1, by omega⟩
    rw [Valid, Bool.and_eq_true] at hv
    exact parseValue_byteString bs (of_decide_eq_true hv.1) f1 pre post
  | .integer i, hv, f, pre, post, hf => by
    rw [neededV] at hf
    obtain ⟨f1, rfl⟩ : ∃ f1, f = f1 + 1 := ⟨f - 1, by omega⟩
    rw [Valid] at hv
    have h := of_decide_eq_true hv
    exact parseValue_integer i h.1 h.2 f1 pre post
  | .list l, hv, f, pre, post, hf => by
    rw [neededV] at hf
    obtain ⟨f1, rfl⟩ : ∃ f1, f = f1 + 1 := ⟨f - 1, by omega⟩
    rw [Valid] at hv
    have henc : bencode (.list l) = 108 :: (bencodeList l ++ [101]) := by rw [bencode]
    have hget : (pre ++ bencode (.list l) ++ post)[pre.length]? = some 108 := by
      rw [henc, show pre ++ 108 :: (bencodeList l ++ [101]) ++ post =
        pre ++ 108 :: (bencodeList l ++ [101] ++ post) by simp]
      exact getElem?_append_cons pre 108 _
    have hloop : parseListLoop f1 (pre.length + 1) (pre ++ bencode (.list l) ++ post) =
        .ok (pre.length + 1 + (bencodeList l).length + 1, l) := by
      have hs2 : pre ++ bencode (.list l) ++ post =
          (pre ++ [108]) ++ bencodeList l ++ 101 :: post := by
        rw [henc]
        simp
      have hlen1 : pre.length + 1 = (pre ++ [108]).length := by simp
      rw [hs2, hlen1, parseListLoop_bencode l hv f1 (pre ++ [108]) post (by omega)]
    set input := pre ++ bencode (.list l) ++ post with hinput
    rw [parseValue]
    simp only [hget]
    norm_num
    simp only [hloop]
    rw [henc]
    simp only [List.length_cons, List.length_append, List.length_nil]
    congr 2
    omega
  | .dict d, hv, f, pre, post, hf => by
    rw [neededV] at hf
    obtain ⟨f1, rfl⟩ : ∃ f1, f = f1 + 1 := ⟨f - 1, by omega⟩
    rw [Valid, Bool.and_eq_true] at hv
    have henc : bencode (.dict d) = 100 :: (bencodeDict d ++ [101]) := by rw [bencode]
    have hget : (pre ++ bencode (.dict d) ++ post)[pre.length]? = some 100 := by
      rw [henc, show pre ++ 100 :: (bencodeDict d ++ [101]) ++ post =
        pre ++ 100 :: (bencodeDict d ++ [101] ++ post) by simp]
      exact getElem?_append_cons pre 100 _
    have hloop : parseDictLoop f1 (pre.length + 1) (pre ++ bencode (.dict d) ++ post) [] =
        .ok (pre.length + 1 + (bencodeDict d).length + 1, d) := by
      have hs2 : pre ++ bencode (.dict d) ++ post =
          (pre ++ [100]) ++ bencodeDict d ++ 101 :: post := by
        rw [henc]
        simp
      have hlen1 : pre.length + 1 = (pre ++ [100]).length := by simp
      rw [hs2, hlen1,
        parseDictLoop_bencode d hv.2 [] (by simpa using hv.1) f1 (pre ++ [100]) post (by omega)]
      simp
    set input := pre ++ bencode (.dict d) ++ post with hinput
    rw [parseValue]
    simp only [hget]
    norm_num
    simp only [hloop]
    rw [henc]
    simp only [List.length_cons, List.length_append, List.length_nil]
    congr 2
    omega
termination_by v hv f pre post hf => sizeOf v
decreasing_by all_goals simp_wf <;> subst_vars <;> omega

theorem parseListLoop_bencode : ∀ (l : List Bencodable), ValidList l = true →
    ∀ (f : Nat) (pre post : List Nat), neededL l ≤ f →
    parseListLoop f pre.length (pre ++ bencodeList l ++ 101 :: post) =
      .ok (pre.length + (bencodeList l).length + 1, l)
  | [], _, f, pre, post, hf => by
    rw [neededL] at hf
    obtain ⟨f1, rfl⟩ : ∃ f1, f = f1 + 1 := ⟨f - 1, by omega⟩
    have hget : (pre ++ bencodeList [] ++ 101 :: post)[pre.length]? = some 101 := by
      rw [bencodeList]
      simp only [List.append_nil]
      exact getElem?_append_cons pre 101 post
    rw [parseListLoop]
    simp only [hget]
    norm_num
    rw [bencodeList]
  | v :: vs, hl, f, pre, post, hf => by
    rw [neededL] at hf
    obtain ⟨f1, rfl⟩ : ∃ f1, f = f1 + 1 := ⟨f - 1, by omega⟩
    rw [ValidList, Bool.and_eq_true] at hl
    obtain ⟨c, cs, hcd, hc101⟩ := bencode_head v
    have hb : bencodeList (v :: vs) = bencode v ++ bencodeList vs := by rw [bencodeList]
    have hget : (pre ++ bencodeList (v :: vs) ++ 101 :: post)[pre.length]? = some c := by
      rw [hb, hcd, show pre ++ (c :: cs ++ bencodeList vs) ++ 101 :: post =
        pre ++ c :: (cs ++ bencodeList vs ++ 101 :: post) by simp]
      exact getElem?_append_cons pre c _
    have hv1 : parseValue f1 pre.length (pre ++ bencodeList (v :: vs) ++ 101 :: post) =
        .ok (pre.length + (bencode v).length, v) := by
      rw [hb, show pre ++ (bencode v ++ bencodeList vs) ++ 101 :: post =
        pre ++ bencode v ++ (bencodeList vs ++ 101 :: post) by simp]
      exact parseValue_bencode v hl.1 f1 pre _ (by omega)
    have hrest : parseListLoop f1 (pre.length + (bencode v).length)
        (pre ++ bencodeList (v :: vs) ++ 101 :: post) =
        .ok (pre.length + (bencode v).length + (bencodeList vs).length + 1, vs) := by
      have hs2 : pre ++ bencodeList (v :: vs) ++ 101 :: post =
          (pre ++ bencode v) ++ bencodeList vs ++ 101 :: post := by
        rw [hb]
        simp
      have hlen1 : pre.length + (bencode v).length = (pre ++ bencode v).length := by simp
      rw [hs2, hlen1, parseListLoop_bencode vs hl.2 f1 (pre ++ bencode v) post (by omega)]
    set input := pre ++ bencodeList (v :: vs) ++ 101 :: post with hinput
    rw [parseListLoop]
    simp only [hget]
    rw [if_neg hc101]
    simp only [hv1]
    simp only [hrest]
    rw [hb]
    simp only [List.length_append]
    congr 2
    omega
termination_by l hl f pre post hf => sizeOf l
decreasing_by all_goals simp_wf <;> subst_vars <;> omega

theorem parseDictLoop_bencode : ∀ (d : List (List Nat × Bencodable)), ValidDict d = true →
    ∀ (acc : List (List Nat × Bencodable)), sortedKeys (acc ++ d) = true →
    ∀ (f : Nat) (pre post : List Nat), neededD d ≤ f →
    parseDictLoop f pre.length (pre ++ bencodeDict d ++ 101 :: post) acc =
      .ok (pre.length + (bencodeDict d).length + 1, acc ++ d)
  | [], _, acc, hs, f, pre, post, hf => by
    rw [neededD] at hf
    obtain ⟨f1, rfl⟩ : ∃ f1, f = f1 + 1 := ⟨f - 1, by omega⟩
    have hget : (pre ++ bencodeDict [] ++ 101 :: post)[pre.length]? = some 101 := by
      rw [bencodeDict]
      simp only [List.append_nil]
      exact getElem?_append_cons pre 101 post
    rw [parseDictLoop]
    simp only [hget]
    norm_num
    rw [bencodeDict]
  | (k, kv) :: rest, hd, acc, hs, f, pre, post, hf => by
    rw [neededD] at hf
    obtain ⟨f1, rfl⟩ : ∃ f1, f = f1 + 1 := ⟨f - 1, by omega⟩
    rw [ValidDict, Bool.and_eq_true] at hd
    have hd2 := hd.2
    rw [Bool.and_eq_true] at hd2
    have hvk : Valid (.byteString k) = true := by
      rw [Valid]
      exact hd.1
    have hb : bencodeDict ((k, kv) :: rest) =
        (bencode (.byteString k) ++ bencode kv) ++ bencodeDict rest := by
      rw [bencodeDict]
    obtain ⟨c, cs, hcd, hc101⟩ := bencode_head (.byteString k)
    have hget : (pre ++ bencodeDict ((k, kv) :: rest) ++ 101 :: post)[pre.length]? = some c := by
      rw [hb, hcd, show pre ++ ((c :: cs ++ bencode kv) ++ bencodeDict rest) ++ 101 :: post =
        pre ++ c :: (cs ++ bencode kv ++ bencodeDict rest ++ 101 :: post) by simp]
      exact getElem?_append_cons pre c _
    have h1 : parseValue f1 pre.length (pre ++ bencodeDict ((k, kv) :: rest) ++ 101 :: post) =
        .ok (pre.length + (bencode (.byteString k)).length, .byteString k) := by
      rw [hb, show pre ++ ((bencode (.byteString k) ++ bencode kv) ++ bencodeDict rest) ++
          101 :: post =
        pre ++ bencode (.byteString k) ++ (bencode kv ++ bencodeDict rest ++ 101 :: post)
        by simp]
      exact parseValue_bencode (.byteString k) hvk f1 pre _ (by omega)
    have h2 : parseValue f1 (pre.length + (bencode (.byteString k)).length)
        (pre ++ bencodeDict ((k, kv) :: rest) ++ 101 :: post) =
        .ok (pre.length + (bencode (.byteString k)).length + (bencode kv).length, kv) := by
      have hs2 : pre ++ bencodeDict ((k, kv) :: rest) ++ 101 :: post =
          (pre ++ bencode (.byteString k)) ++ bencode kv ++
            (bencodeDict rest ++ 101 :: post) := by
        rw [hb]
        simp
      have hlen1 : pre.length + (bencode (.byteString k)).length =
          (pre ++ bencode (.byteString k)).length := by simp
      rw [hs2, hlen1, parseValue_bencode kv hd2.1 f1 (pre ++ bencode (.byteString k)) _
        (by omega)]
    have hins : dictInsert k kv acc = acc ++ [(k, kv)] :=
      dictInsert_append acc (sortedKeys_append_all_lt acc hs)
    have hs2 : sortedKeys ((acc ++ [(k, kv)]) ++ rest) = true := by
      simpa using hs
    have hrest : parseDictLoop f1
        (pre.length + (bencode (.byteString k)).length + (bencode kv).length)
        (pre ++ bencodeDict ((k, kv) :: rest) ++ 101 :: post) (dictInsert k kv acc) =
        .ok (pre.length + (bencode (.byteString k)).length + (bencode kv).length +
          (bencodeDict rest).length + 1, (acc ++ [(k, kv)]) ++ rest) := by
      have hs3 : pre ++ bencodeDict ((k, kv) :: rest) ++ 101 :: post =
          (pre ++ bencode (.byteString k) ++ bencode kv) ++ bencodeDict rest ++
            101 :: post := by
        rw [hb]
        simp
      have hlen1 : pre.length + (bencode (.byteString k)).length + (bencode kv).length =
          (pre ++ bencode (.byteString k) ++ bencode kv).length := by
        simp [Nat.add_assoc]
      rw [hins, hs3, hlen1, parseDictLoop_bencode rest hd2.2 (acc ++ [(k, kv)]) hs2 f1
        (pre ++ bencode (.byteString k) ++ bencode kv) post (by omega)]
    set input := pre ++ bencodeDict ((k, kv) :: rest) ++ 101 :: post with hinput
    rw [parseDictLoop]
    simp only [hget]
    rw [if_neg hc101]
    simp only [h1]
    simp only [h2]
    simp only [hrest]
    rw [hb]
    simp only [List.length_append, List.append_assoc, List.singleton_append]
    congr 2
    omega
termination_by d hd acc hs f pre post hf => sizeOf d
decreasing_by all_goals simp_wf <;> subst_vars <;> omega

end

/-- Top-level round trip: `bdecode` run on `bencode v` with its own fuel policy
recovers exactly `v`, for every `Valid` value `v`. -/
theorem bdecode_bencode (v : Bencodable) (hv : Valid v = true) :
    bdecode (bencode v) = .ok v := by
  have hlen := neededV_le v
  have h := parseValue_bencode v hv (2 * (bencode v).length + 2) [] [] (by omega)
  simp only [List.nil_append, List.append_nil, List.length_nil, Nat.zero_add] at h
  rw [bdecode, h]
  simp

/-- C1 counterexample: the decoder accepts the non-canonical integer encoding
`i-0e`, decoding it to `0`, yet re-encoding `0` yields `i0e`, not `i-0e`; so
`bencode (bdecode B) = B` fails for a `B` on which `bdecode` succeeds. -/
theorem bdecode_noncanonical_counterexample :
    bdecode [105, 45, 48, 101] = .ok (.integer 0) ∧
      bencode (.integer 0) = [105, 48, 101] ∧
      ([105, 48, 101] : List Nat) ≠ [105, 45, 48, 101] := by
  refine ⟨?_, ?_, by decide⟩
  · simp [bdecode, parseValue, parseInteger, parseI32, digitsVal, digitsValCore,
      scanUntil, scanCore]
  · simp [bencode, intDecimal, natDecimal, natDigitsCore]

/-- C1: the encode/decode round trip holds in the decode-then-encode direction
exactly on canonical encodings: for every value `v` the Rust `Bencodable` type
can represent (keys strictly sorted, lengths in `usize`, integers in `i32`),
`bdecode (bencode v) = Ok v`, and hence `bencode (bdecode B) = B` for every `B`
in the image of `bencode`. (The unrestricted claim over all accepted `B` is
refuted by `i-0e`.) -/
theorem bencode_bdecode_roundtrip (v : Bencodable) (hv : Valid v = true) :
    bdecode (bencode v) = .ok v ∧
      (bdecode (bencode v)).map bencode = .ok (bencode v) := by
  have h := bdecode_bencode v hv
  exact ⟨h, by rw [h]; rfl⟩

/-- Witness for C1 at a concrete dictionary value. -/
theorem bencode_bdecode_roundtrip_witness :
    Valid (Bencodable.dict [([97], .integer 1), ([98, 99], .byteString [100])]) = true ∧
      bdecode (bencode (Bencodable.dict [([97], .integer 1), ([98, 99], .byteString [100])])) =
        .ok (Bencodable.dict [([97], .integer 1), ([98, 99], .byteString [100])]) ∧
      (bdecode (bencode (Bencodable.dict [([97], .integer 1), ([98, 99], .byteString [100])]))).map
          bencode =
        .ok (bencode (Bencodable.dict [([97], .integer 1), ([98, 99], .byteString [100])])) :=
  ⟨by decide, bencode_bdecode_roundtrip _ (by decide)⟩

end BitTorrent
